import Mathlib

/-!
Verification of the report-generation engine ("Interval Reconstructor &
Aggregator") of the machine-status dashboard, a shallow embedding of
`generateReport` in `src/components/ReportsPage.tsx`.

Timestamps are modelled as `ℤ` (JavaScript `Date.getTime()` millisecond
values), statuses as `String`, and the JavaScript `Record<string, number>`
duration maps as insertion-ordered association lists, which matches the
iteration order of `Object.entries` over string-keyed objects.
Percentages are modelled in `ℚ` (the JavaScript arithmetic is IEEE double,
but every claim under study concerns the formula and its guard, not
rounding).
-/

namespace MachineReports

/-- One row of the machine's status-change log (source interface
`StatusHistory`).  The report computation reads only `status` and
`changed_at`; the unread fields (`id`, `machine_id`, `previous_status`,
`comment`, `changed_by`) are omitted from the embedding. -/
structure StatusHistoryEvent where
  status : String
  changedAt : ℤ
  deriving Repr, DecidableEq

/-- Source interface `TimelineSegment`. -/
structure TimelineSegment where
  status : String
  startTime : ℤ
  endTime : ℤ
  duration : ℤ
  deriving Repr, DecidableEq

/-- Source interface `StatusDuration`. -/
structure StatusDuration where
  status : String
  duration : ℤ
  percentage : ℚ
  deriving Repr, DecidableEq

/-- Source interface `MachineReport` (the display-only `machineCode` and
`machineName` strings are omitted). -/
structure MachineReport where
  machineId : ℤ
  statusDurations : List StatusDuration
  totalTime : ℤ
  deriving Repr, DecidableEq

/-- Source interface `DepartmentReport`. -/
structure DepartmentReport where
  statusDurations : List StatusDuration
  totalTime : ℤ
  machineReports : List MachineReport
  deriving Repr, DecidableEq

/-- Source interface `MachineTimeline` (display-only name fields omitted). -/
structure MachineTimeline where
  machineId : ℤ
  segments : List TimelineSegment
  deriving Repr, DecidableEq

/-- The per-machine data `generateReport` consumes: `machine.created_at`
and the rows returned by `GET /machines/{id}/history`, in the order the
backend supplied them (the source never sorts them). -/
structure MachineInput where
  id : ℤ
  createdAt : ℤ
  history : List StatusHistoryEvent
  deriving Repr, DecidableEq

/-- `map[key] = (map[key] || 0) + d` on a string-keyed JavaScript object:
update the existing entry in place, or append a new key at the end
(JavaScript objects preserve insertion order for string keys). -/
def addDuration : List (String × ℤ) → String → ℤ → List (String × ℤ)
  | [], s, d => [(s, d)]
  | (k, v) :: rest, s, d =>
    if k = s then (k, v + d) :: rest else (k, v) :: addDuration rest s d

/-- The mutable state of the interval sweep in `generateReport`
(lines 274–315): the per-machine duration map, the caller-owned aggregate
map `departmentStatusTotals`, the growing segment list, and the
`currentStatus` / `currentPeriodStart` cursor. -/
structure SweepState where
  statusDurations : List (String × ℤ)
  deptTotals : List (String × ℤ)
  segments : List TimelineSegment
  currentStatus : Option String
  currentPeriodStart : ℤ
  deriving Repr, DecidableEq

/-- One iteration of the `for` loop over `relevantHistory`
(ReportsPage.tsx lines 290–315): close the pending period if a status is
set and the event time is strictly after `currentPeriodStart` and the
clipped duration is positive, then advance the cursor.  The source guard
is `if (currentStatus && changeTime > currentPeriodStart)`: JavaScript
truthiness makes it fail both on `null` and on the empty string, so the
embedding requires the status to be non-empty as well. -/
def sweepStep (reportStartTime endTime : ℤ) (st : SweepState)
    (ev : StatusHistoryEvent) : SweepState :=
  let st' : SweepState :=
    match st.currentStatus with
    | some cs =>
      if cs ≠ "" ∧ st.currentPeriodStart < ev.changedAt then
        let periodEnd := min ev.changedAt endTime
        let duration := periodEnd - st.currentPeriodStart
        if 0 < duration then
          { st with
            statusDurations := addDuration st.statusDurations cs duration
            deptTotals := addDuration st.deptTotals cs duration
            segments := st.segments ++
              [{ status := cs, startTime := st.currentPeriodStart,
                 endTime := periodEnd, duration := duration }] }
        else st
      else st
    | none => st
  { st' with currentStatus := some ev.status,
             currentPeriodStart := max ev.changedAt reportStartTime }

/-- The closing step after the loop (lines 317–332): if a status is still
set and its period reaches `endTime`, emit the final segment.  The source
guard is `if (currentStatus && currentPeriodStart < endTime)`, so as in
`sweepStep` a JavaScript-falsy empty-string status emits nothing. -/
def closeFinal (endTime : ℤ) (st : SweepState) : SweepState :=
  match st.currentStatus with
  | some cs =>
    if cs ≠ "" ∧ st.currentPeriodStart < endTime then
      let duration := endTime - st.currentPeriodStart
      if 0 < duration then
        { st with
          statusDurations := addDuration st.statusDurations cs duration
          deptTotals := addDuration st.deptTotals cs duration
          segments := st.segments ++
            [{ status := cs, startTime := st.currentPeriodStart,
               endTime := endTime, duration := duration }] }
      else st
    else st
  | none => st

/-- The carried-over status determination (lines 280–288): only when the
first element of `relevantHistory` is strictly later than
`reportStartTime`, look up `history.find(h => changedAt <= reportStartTime)`
— the FIRST matching element in the supplied array order. -/
def carriedOverStatus (history relevantHistory : List StatusHistoryEvent)
    (reportStartTime : ℤ) : Option String :=
  match relevantHistory with
  | [] => none
  | first :: _ =>
    if reportStartTime < first.changedAt then
      (history.find? (fun h => decide (h.changedAt ≤ reportStartTime))).map
        (fun h => h.status)
    else
      none

/-- Stable insertion keeping elements with equal duration in their
original relative order: the new element goes after every element whose
duration is at least as large. -/
def insertByDurationDesc (x : StatusDuration) :
    List StatusDuration → List StatusDuration
  | [] => [x]
  | y :: ys =>
    if y.duration < x.duration then x :: y :: ys
    else y :: insertByDurationDesc x ys

/-- `array.sort((a, b) => b.duration - a.duration)`: stable descending
sort by duration. -/
def sortByDurationDesc (l : List StatusDuration) : List StatusDuration :=
  l.foldl (fun acc x => insertByDurationDesc x acc) []

/-- The whole sweep for one machine (lines 274–332): initial cursor at
`reportStartTime` with the carried-over status, fold over
`relevantHistory`, then the closing step. -/
def runSweep (reportStartTime endTime : ℤ)
    (history relevantHistory : List StatusHistoryEvent)
    (deptTotals : List (String × ℤ)) : SweepState :=
  closeFinal endTime
    (relevantHistory.foldl (sweepStep reportStartTime endTime)
      { statusDurations := []
        deptTotals := deptTotals
        segments := []
        currentStatus := carriedOverStatus history relevantHistory reportStartTime
        currentPeriodStart := reportStartTime })

/-- `Object.entries(map).map(([status, duration]) => ({status, duration,
percentage: total > 0 ? duration / total * 100 : 0})).sort((a, b) =>
b.duration - a.duration)` — the breakdown-array construction that appears
once for the machine breakdown (lines 339–347) and once for the
department breakdown (lines 369–377). -/
def mkStatusDurationArray (assoc : List (String × ℤ)) (total : ℤ) :
    List StatusDuration :=
  sortByDurationDesc (assoc.map (fun p =>
    { status := p.1
      duration := p.2
      percentage :=
        if 0 < total then ((p.2 : ℚ) / (total : ℚ)) * 100 else 0 }))

/-- The body of the `for (const machine of targetMachines)` loop
(lines 249–363) for one machine: filter the fetched history by
`created_at`, apply the two emptiness guards, run the sweep, and build the
per-machine report and timeline.  Returns `none` where the source runs
`continue`, threading the caller-owned `departmentStatusTotals`
accumulator through unchanged in that case. -/
def processMachine (startTime endTime : ℤ) (m : MachineInput)
    (deptTotals : List (String × ℤ)) :
    Option (MachineReport × MachineTimeline) × List (String × ℤ) :=
  let machineCreatedAt := m.createdAt
  let history := m.history.filter (fun h => decide (machineCreatedAt ≤ h.changedAt))
  let reportStartTime := max startTime machineCreatedAt
  if endTime ≤ reportStartTime ∨ history = [] then
    (none, deptTotals)
  else
    let relevantHistory := history.filter (fun h => decide (h.changedAt < endTime))
    if relevantHistory = [] then
      (none, deptTotals)
    else
      let finalSt := runSweep reportStartTime endTime history relevantHistory deptTotals
      let machineTotal := (finalSt.statusDurations.map Prod.snd).sum
      (some ({ machineId := m.id,
               statusDurations := mkStatusDurationArray finalSt.statusDurations machineTotal,
               totalTime := machineTotal },
             { machineId := m.id, segments := finalSt.segments }),
       finalSt.deptTotals)

/-- `effectiveEndTime` (lines 134–138): `Math.min(end, Date.now())`. -/
def effectiveEndTime (endDateTime nowTime : ℤ) : ℤ :=
  min endDateTime nowTime

/-- One machine of the report loop at the accumulator level: push the
per-machine report and timeline when the machine contributes, thread
`departmentStatusTotals` through either way. -/
def reportFoldStep (startTime endTime : ℤ)
    (acc : List MachineReport × List (String × ℤ) × List MachineTimeline)
    (m : MachineInput) :
    List MachineReport × List (String × ℤ) × List MachineTimeline :=
  match processMachine startTime endTime m acc.2.1 with
  | (some (rep, tl), totals') => (acc.1 ++ [rep], totals', acc.2.2 ++ [tl])
  | (none, totals') => (acc.1, totals', acc.2.2)

/-- The whole of `generateReport` (lines 220–390) over an already-resolved
list of target machines with their fetched histories: fold the per-machine
computation, then build the aggregate breakdown from
`departmentStatusTotals`. -/
def generateReport (startTime endTimeRaw nowTime : ℤ)
    (machines : List MachineInput) : DepartmentReport × List MachineTimeline :=
  let endTime := effectiveEndTime endTimeRaw nowTime
  let folded := machines.foldl (reportFoldStep startTime endTime) ([], [], [])
  let departmentTotal := (folded.2.1.map Prod.snd).sum
  ({ statusDurations := mkStatusDurationArray folded.2.1 departmentTotal,
     totalTime := departmentTotal,
     machineReports := folded.1 }, folded.2.2)

/-- Following the spec's words, not the code: the `status` of the latest
event of the history whose `changedAt` is at or before `t` (the spec's
definition of the carried-over status). -/
def latestStatusAtOrBefore (history : List StatusHistoryEvent) (t : ℤ) :
    Option String :=
  ((history.filter (fun h => decide (h.changedAt ≤ t))).foldl
    (fun acc e =>
      match acc with
      | none => some e
      | some a => if a.changedAt < e.changedAt then some e else some a)
    none).map (fun h => h.status)

/-- Following the spec's words, not the code: the total time within the
window `[windowStart, windowEnd)` during which no status was known, i.e.
during which no event of the history has happened yet.  It is the part of
the window before the history's earliest event. -/
def specTimeWithNoKnownStatus (history : List StatusHistoryEvent)
    (windowStart windowEnd : ℤ) : ℤ :=
  match (history.map (fun h => h.changedAt)).min? with
  | none => windowEnd - windowStart
  | some m => max 0 (min m windowEnd - windowStart)

/-- The unknown-status gap at the very start of the sweep: the part of
the effective window before the first element of `relevantHistory`
(zero when that element is at or before the effective report start). -/
def leadingUnknownTime (relevantHistory : List StatusHistoryEvent)
    (reportStartTime : ℤ) : ℤ :=
  match relevantHistory.head? with
  | none => 0
  | some first => max first.changedAt reportStartTime - reportStartTime

/-! ### Sum helpers -/

/-- Sum of the values recorded under key `s` in a duration map. -/
def valSum (s : String) (l : List (String × ℤ)) : ℤ :=
  ((l.filter (fun p => decide (p.1 = s))).map Prod.snd).sum

/-- Sum of all values of a duration map. -/
def totSum (l : List (String × ℤ)) : ℤ :=
  (l.map Prod.snd).sum

/-- Sum of the durations recorded for status `s` in a breakdown array. -/
def durSum (s : String) (l : List StatusDuration) : ℤ :=
  ((l.filter (fun e => decide (e.status = s))).map (fun e => e.duration)).sum

/-- Sum of all durations of a breakdown array. -/
def durTotal (l : List StatusDuration) : ℤ :=
  (l.map (fun e => e.duration)).sum

/-- Sum of all durations of a segment list. -/
def segSum (l : List TimelineSegment) : ℤ :=
  (l.map (fun sg => sg.duration)).sum

lemma valSum_nil (s : String) : valSum s [] = 0 := rfl

lemma totSum_nil : totSum [] = 0 := rfl

lemma segSum_append (l : List TimelineSegment) (sg : TimelineSegment) :
    segSum (l ++ [sg]) = segSum l + sg.duration := by
  simp [segSum]

lemma valSum_cons (s : String) (p : String × ℤ) (l : List (String × ℤ)) :
    valSum s (p :: l) = (if p.1 = s then p.2 else 0) + valSum s l := by
  by_cases h : p.1 = s <;> simp [valSum, List.filter_cons, h]

lemma totSum_cons (p : String × ℤ) (l : List (String × ℤ)) :
    totSum (p :: l) = p.2 + totSum l := by
  simp [totSum]

lemma valSum_addDuration (l : List (String × ℤ)) (k : String) (d : ℤ)
    (s : String) :
    valSum s (addDuration l k d) = valSum s l + if k = s then d else 0 := by
  induction l with
  | nil =>
    by_cases h : k = s <;> simp [addDuration, valSum_cons, valSum_nil, h]
  | cons q rest ih =>
    obtain ⟨a, v⟩ := q
    by_cases hq : a = k
    · subst hq
      have h1 : addDuration ((a, v) :: rest) a d = (a, v + d) :: rest := by
        simp [addDuration]
      rw [h1, valSum_cons, valSum_cons]
      by_cases hs : a = s
      · simp [hs]
        ring
      · simp [hs]
    · have h1 : addDuration ((a, v) :: rest) k d =
          (a, v) :: addDuration rest k d := by
        simp [addDuration, hq]
      rw [h1, valSum_cons, valSum_cons, ih]
      ring

lemma totSum_addDuration (l : List (String × ℤ)) (k : String) (d : ℤ) :
    totSum (addDuration l k d) = totSum l + d := by
  induction l with
  | nil => simp [addDuration, totSum]
  | cons q rest ih =>
    obtain ⟨a, v⟩ := q
    by_cases hq : a = k
    · subst hq
      have h1 : addDuration ((a, v) :: rest) a d = (a, v + d) :: rest := by
        simp [addDuration]
      rw [h1, totSum_cons, totSum_cons]
      ring
    · have h1 : addDuration ((a, v) :: rest) k d =
          (a, v) :: addDuration rest k d := by
        simp [addDuration, hq]
      rw [h1, totSum_cons, totSum_cons, ih]
      ring

lemma addDuration_ne_nil (l : List (String × ℤ)) (k : String) (d : ℤ) :
    addDuration l k d ≠ [] := by
  cases l with
  | nil => simp [addDuration]
  | cons q rest =>
    obtain ⟨a, v⟩ := q
    by_cases hq : a = k <;> simp [addDuration, hq]

lemma addDuration_pos (l : List (String × ℤ)) (k : String) (d : ℤ)
    (hl : ∀ p ∈ l, 0 < p.2) (hd : 0 < d) :
    ∀ p ∈ addDuration l k d, 0 < p.2 := by
  induction l with
  | nil =>
    intro p hp
    simp [addDuration] at hp
    subst hp
    simpa using hd
  | cons q rest ih =>
    intro p hp
    obtain ⟨a, v⟩ := q
    by_cases hq : a = k
    · simp only [addDuration, if_pos hq, List.mem_cons] at hp
      rcases hp with rfl | hp
      · have hv : 0 < v := by simpa using hl (a, v) (by simp)
        simpa using add_pos hv hd
      · exact hl p (List.mem_cons_of_mem _ hp)
    · simp only [addDuration, if_neg hq, List.mem_cons] at hp
      rcases hp with rfl | hp
      · exact hl (a, v) (by simp)
      · exact ih (fun r hr => hl r (List.mem_cons_of_mem _ hr)) p hp

/-! ### The stable descending sort is a permutation -/

lemma insertByDurationDesc_perm (x : StatusDuration) (l : List StatusDuration) :
    List.Perm (insertByDurationDesc x l) (x :: l) := by
  induction l with
  | nil => simp [insertByDurationDesc]
  | cons y ys ih =>
    by_cases h : y.duration < x.duration
    · simp [insertByDurationDesc, h]
    · simp only [insertByDurationDesc, if_neg h]
      exact (ih.cons y).trans (List.Perm.swap x y ys)

lemma foldl_insertByDurationDesc_perm :
    ∀ (l acc : List StatusDuration),
      List.Perm (l.foldl (fun a x => insertByDurationDesc x a) acc) (acc ++ l)
  | [], acc => by simp
  | x :: xs, acc => by
    have h1 := foldl_insertByDurationDesc_perm xs (insertByDurationDesc x acc)
    have h2 : List.Perm (insertByDurationDesc x acc ++ xs) ((x :: acc) ++ xs) :=
      (insertByDurationDesc_perm x acc).append_right xs
    have h3 : List.Perm ((x :: acc) ++ xs) (acc ++ x :: xs) :=
      List.perm_middle.symm
    exact ((h1.trans h2).trans h3)

lemma sortByDurationDesc_perm (l : List StatusDuration) :
    List.Perm (sortByDurationDesc l) l := by
  simpa [sortByDurationDesc] using foldl_insertByDurationDesc_perm l []

lemma mem_sortByDurationDesc (l : List StatusDuration) (e : StatusDuration) :
    e ∈ sortByDurationDesc l ↔ e ∈ l :=
  (sortByDurationDesc_perm l).mem_iff

lemma durSum_perm (s : String) {l l' : List StatusDuration}
    (h : List.Perm l l') : durSum s l = durSum s l' := by
  unfold durSum
  exact List.Perm.sum_eq ((h.filter _).map _)

lemma durTotal_perm {l l' : List StatusDuration}
    (h : List.Perm l l') : durTotal l = durTotal l' := by
  unfold durTotal
  exact List.Perm.sum_eq (h.map _)

/-! ### Properties of the breakdown-array construction -/

lemma durSum_mkStatusDurationArray (assoc : List (String × ℤ)) (total : ℤ)
    (s : String) :
    durSum s (mkStatusDurationArray assoc total) = valSum s assoc := by
  rw [mkStatusDurationArray,
    durSum_perm s (sortByDurationDesc_perm _)]
  induction assoc with
  | nil => rfl
  | cons p rest ih =>
    by_cases h : p.1 = s
    · simp [durSum, List.filter_cons, h, valSum_cons] at ih ⊢
      rw [← ih]
    · simp [durSum, List.filter_cons, h, valSum_cons] at ih ⊢
      rw [← ih]

lemma durTotal_mkStatusDurationArray (assoc : List (String × ℤ)) (total : ℤ) :
    durTotal (mkStatusDurationArray assoc total) = totSum assoc := by
  rw [mkStatusDurationArray, durTotal_perm (sortByDurationDesc_perm _)]
  induction assoc with
  | nil => rfl
  | cons p rest ih => simp [durTotal, totSum] at ih ⊢; omega

lemma mem_mkStatusDurationArray_percentage (assoc : List (String × ℤ))
    (total : ℤ) (e : StatusDuration)
    (he : e ∈ mkStatusDurationArray assoc total) :
    e.percentage =
      if 0 < total then ((e.duration : ℚ) / (total : ℚ)) * 100 else 0 := by
  rw [mkStatusDurationArray, mem_sortByDurationDesc] at he
  obtain ⟨p, _, rfl⟩ := List.mem_map.mp he
  rfl

lemma mem_mkStatusDurationArray_pos (assoc : List (String × ℤ)) (total : ℤ)
    (hpos : ∀ p ∈ assoc, 0 < p.2) :
    ∀ e ∈ mkStatusDurationArray assoc total, 0 < e.duration := by
  intro e he
  rw [mkStatusDurationArray, mem_sortByDurationDesc] at he
  obtain ⟨p, hp, rfl⟩ := List.mem_map.mp he
  exact hpos p hp

lemma mkStatusDurationArray_ne_nil (assoc : List (String × ℤ)) (total : ℤ)
    (h : assoc ≠ []) : mkStatusDurationArray assoc total ≠ [] := by
  intro hc
  have := (sortByDurationDesc_perm (assoc.map (fun p =>
    ({ status := p.1, duration := p.2,
       percentage := if 0 < total then ((p.2 : ℚ) / (total : ℚ)) * 100
         else 0 } : StatusDuration)))).length_eq
  rw [mkStatusDurationArray] at hc
  rw [hc] at this
  simp at this
  exact h (List.length_eq_zero.mp this.symm)

/-! ### Invariants maintained by the sweep -/

/-- Facts that hold at every point of the sweep, relative to the incoming
aggregate accumulator `d₀` and the effective end `E`: the per-machine
duration map and the segment list carry the same total; the aggregate map
has received exactly the same additions as the per-machine map; all
recorded durations are positive; every emitted segment is internally
consistent and ends at or before `E`. -/
structure SweepInv (d₀ : List (String × ℤ)) (E : ℤ) (st : SweepState) : Prop where
  pair : totSum st.statusDurations = segSum st.segments
  dval : ∀ s, valSum s st.deptTotals = valSum s d₀ + valSum s st.statusDurations
  dtot : totSum st.deptTotals = totSum d₀ + totSum st.statusDurations
  sdpos : ∀ p ∈ st.statusDurations, 0 < p.2
  segok : ∀ sg ∈ st.segments,
    0 < sg.duration ∧ sg.duration = sg.endTime - sg.startTime ∧ sg.endTime ≤ E
  dpos : (∀ p ∈ d₀, 0 < p.2) → ∀ p ∈ st.deptTotals, 0 < p.2

lemma sweepInv_init (d₀ : List (String × ℤ)) (E : ℤ) (cso : Option String)
    (p : ℤ) : SweepInv d₀ E ⟨[], d₀, [], cso, p⟩ := by
  refine ⟨rfl, fun s => ?_, ?_, ?_, ?_, fun h => h⟩
  · show valSum s d₀ = valSum s d₀ + valSum s []
    simp [valSum_nil]
  · show totSum d₀ = totSum d₀ + totSum []
    simp [totSum_nil]
  · intro p hp; simp at hp
  · intro sg hsg; simp at hsg

lemma sweepInv_emit (d₀ : List (String × ℤ)) (E : ℤ)
    (sd dt : List (String × ℤ)) (segs : List TimelineSegment)
    (cso : Option String) (p : ℤ) (cs : String) (pend : ℤ)
    (h : SweepInv d₀ E ⟨sd, dt, segs, cso, p⟩)
    (hlt : p < pend) (hpe : pend ≤ E) :
    SweepInv d₀ E ⟨addDuration sd cs (pend - p), addDuration dt cs (pend - p),
      segs ++ [⟨cs, p, pend, pend - p⟩], cso, p⟩ := by
  have hdur : (0 : ℤ) < pend - p := by omega
  have hpair : totSum sd = segSum segs := h.pair
  have hdval : ∀ s, valSum s dt = valSum s d₀ + valSum s sd := h.dval
  have hdtot : totSum dt = totSum d₀ + totSum sd := h.dtot
  refine ⟨?_, fun s => ?_, ?_, ?_, ?_, fun hd => ?_⟩
  · show totSum (addDuration sd cs (pend - p)) =
      segSum (segs ++ [⟨cs, p, pend, pend - p⟩])
    rw [totSum_addDuration, segSum_append, hpair]
  · show valSum s (addDuration dt cs (pend - p)) =
      valSum s d₀ + valSum s (addDuration sd cs (pend - p))
    rw [valSum_addDuration, valSum_addDuration, hdval s]
    ring
  · show totSum (addDuration dt cs (pend - p)) =
      totSum d₀ + totSum (addDuration sd cs (pend - p))
    rw [totSum_addDuration, totSum_addDuration, hdtot]
    ring
  · exact addDuration_pos sd cs (pend - p) h.sdpos hdur
  · intro sg hsg
    rcases List.mem_append.mp hsg with hsg | hsg
    · exact h.segok sg hsg
    · simp at hsg
      subst hsg
      exact ⟨hdur, rfl, hpe⟩
  · exact addDuration_pos dt cs (pend - p) (h.dpos hd) hdur

lemma sweepInv_step (d₀ : List (String × ℤ)) (S E : ℤ) (st : SweepState)
    (ev : StatusHistoryEvent) (h : SweepInv d₀ E st) :
    SweepInv d₀ E (sweepStep S E st ev) := by
  obtain ⟨sd, dt, segs, cso, p⟩ := st
  have cursor : ∀ (st' : SweepState), SweepInv d₀ E st' →
      SweepInv d₀ E { st' with currentStatus := some ev.status,
                               currentPeriodStart := max ev.changedAt S } := by
    intro st' h'
    exact ⟨h'.pair, h'.dval, h'.dtot, h'.sdpos, h'.segok, h'.dpos⟩
  cases cso with
  | none =>
    simpa [sweepStep] using cursor _ h
  | some cs =>
    by_cases h1 : cs ≠ "" ∧ p < ev.changedAt
    · by_cases h2 : (0 : ℤ) < min ev.changedAt E - p
      · simp only [sweepStep, if_pos h1, if_pos h2]
        exact cursor _ (sweepInv_emit d₀ E sd dt segs (some cs) p cs
          (min ev.changedAt E) h (by omega) (min_le_right _ _))
      · simp only [sweepStep, if_pos h1, if_neg h2]
        exact cursor _ h
    · simp only [sweepStep, if_neg h1]
      exact cursor _ h

lemma sweepInv_foldl (d₀ : List (String × ℤ)) (S E : ℤ) :
    ∀ (l : List StatusHistoryEvent) (st : SweepState), SweepInv d₀ E st →
      SweepInv d₀ E (l.foldl (sweepStep S E) st)
  | [], _, h => h
  | e :: rest, st, h =>
    sweepInv_foldl d₀ S E rest (sweepStep S E st e) (sweepInv_step d₀ S E st e h)

lemma sweepInv_close (d₀ : List (String × ℤ)) (E : ℤ) (st : SweepState)
    (h : SweepInv d₀ E st) : SweepInv d₀ E (closeFinal E st) := by
  obtain ⟨sd, dt, segs, cso, p⟩ := st
  cases cso with
  | none => simpa [closeFinal] using h
  | some cs =>
    by_cases h1 : cs ≠ "" ∧ p < E
    · have h2 : (0 : ℤ) < E - p := by have := h1.2; omega
      simp only [closeFinal, if_pos h1, if_pos h2]
      exact sweepInv_emit d₀ E sd dt segs (some cs) p cs E h h1.2 le_rfl
    · simp only [closeFinal, if_neg h1]
      exact h

lemma sweepInv_runSweep (d₀ : List (String × ℤ)) (S E : ℤ)
    (history relevant : List StatusHistoryEvent) :
    SweepInv d₀ E (runSweep S E history relevant d₀) :=
  sweepInv_close d₀ E _
    (sweepInv_foldl d₀ S E relevant _ (sweepInv_init d₀ E _ _))

/-! ### Characterizing the outcomes of `processMachine` -/

lemma processMachine_none (S E : ℤ) (m : MachineInput)
    (d₀ : List (String × ℤ))
    (hcase : E ≤ max S m.createdAt ∨
      m.history.filter (fun h => decide (m.createdAt ≤ h.changedAt)) = [] ∨
      (m.history.filter (fun h => decide (m.createdAt ≤ h.changedAt))).filter
        (fun h => decide (h.changedAt < E)) = []) :
    processMachine S E m d₀ = (none, d₀) := by
  simp only [processMachine]
  split_ifs with h1 h2
  · rfl
  · rfl
  · exfalso
    rcases hcase with hc | hc | hc
    · exact h1 (Or.inl hc)
    · exact h1 (Or.inr hc)
    · exact h2 hc

lemma processMachine_some {S E : ℤ} {m : MachineInput}
    {d₀ : List (String × ℤ)} {rep : MachineReport} {tl : MachineTimeline}
    {d' : List (String × ℤ)}
    (h : processMachine S E m d₀ = (some (rep, tl), d')) :
    max S m.createdAt < E ∧
    m.history.filter (fun h => decide (m.createdAt ≤ h.changedAt)) ≠ [] ∧
    (m.history.filter (fun h => decide (m.createdAt ≤ h.changedAt))).filter
      (fun h => decide (h.changedAt < E)) ≠ [] ∧
    rep = { machineId := m.id
            statusDurations := mkStatusDurationArray
              (runSweep (max S m.createdAt) E
                (m.history.filter (fun h => decide (m.createdAt ≤ h.changedAt)))
                ((m.history.filter (fun h => decide (m.createdAt ≤ h.changedAt))).filter
                  (fun h => decide (h.changedAt < E))) d₀).statusDurations
              (totSum (runSweep (max S m.createdAt) E
                (m.history.filter (fun h => decide (m.createdAt ≤ h.changedAt)))
                ((m.history.filter (fun h => decide (m.createdAt ≤ h.changedAt))).filter
                  (fun h => decide (h.changedAt < E))) d₀).statusDurations)
            totalTime := totSum (runSweep (max S m.createdAt) E
                (m.history.filter (fun h => decide (m.createdAt ≤ h.changedAt)))
                ((m.history.filter (fun h => decide (m.createdAt ≤ h.changedAt))).filter
                  (fun h => decide (h.changedAt < E))) d₀).statusDurations } ∧
    tl = { machineId := m.id
           segments := (runSweep (max S m.createdAt) E
                (m.history.filter (fun h => decide (m.createdAt ≤ h.changedAt)))
                ((m.history.filter (fun h => decide (m.createdAt ≤ h.changedAt))).filter
                  (fun h => decide (h.changedAt < E))) d₀).segments } ∧
    d' = (runSweep (max S m.createdAt) E
                (m.history.filter (fun h => decide (m.createdAt ≤ h.changedAt)))
                ((m.history.filter (fun h => decide (m.createdAt ≤ h.changedAt))).filter
                  (fun h => decide (h.changedAt < E))) d₀).deptTotals := by
  have h' := h
  simp only [processMachine] at h'
  split_ifs at h' with h1 h2
  · exact absurd (congrArg Prod.fst h') (by simp)
  · exact absurd (congrArg Prod.fst h') (by simp)
  · push_neg at h1
    simp only [Prod.mk.injEq, Option.some.injEq] at h'
    obtain ⟨⟨hr, ht⟩, hd⟩ := h'
    exact ⟨h1.1, h1.2, h2, hr.symm, ht.symm, hd.symm⟩

lemma sweepStep_currentStatus (S E : ℤ) (st : SweepState)
    (ev : StatusHistoryEvent) :
    (sweepStep S E st ev).currentStatus = some ev.status := rfl

lemma sweepStep_currentPeriodStart (S E : ℤ) (st : SweepState)
    (ev : StatusHistoryEvent) :
    (sweepStep S E st ev).currentPeriodStart = max ev.changedAt S := rfl

lemma closeFinal_emit (E : ℤ) (st : SweepState) (cs : String)
    (hcs : st.currentStatus = some cs) (hne : cs ≠ "")
    (hp : st.currentPeriodStart < E) :
    closeFinal E st =
      { st with
        statusDurations :=
          addDuration st.statusDurations cs (E - st.currentPeriodStart)
        deptTotals := addDuration st.deptTotals cs (E - st.currentPeriodStart)
        segments := st.segments ++
          [⟨cs, st.currentPeriodStart, E, E - st.currentPeriodStart⟩] } := by
  obtain ⟨sd, dt, segs, cso, p⟩ := st
  simp only at hcs hp
  subst hcs
  have hcond : cs ≠ "" ∧ p < E := ⟨hne, hp⟩
  simp only [closeFinal, if_pos hcond, if_pos (show (0 : ℤ) < E - p by omega)]

/-- C10 (amended: no event of the machine's history names the empty
string as its status — JavaScript truthiness makes an empty-string status
falsy, so a machine ending on one is pushed with zeros instead): a
machine that passes the emptiness guards contributes a report with
strictly positive total time, a non-empty status breakdown and at least
one timeline segment: the final period from the last element of
`relevantHistory` (whose time is strictly below the effective end) to the
effective end is always emitted with positive duration. -/
theorem processMachine_some_nonempty (S E : ℤ) (m : MachineInput)
    (d₀ d' : List (String × ℤ)) (rep : MachineReport) (tl : MachineTimeline)
    (hstat : ∀ ev ∈ m.history, ev.status ≠ "")
    (h : processMachine S E m d₀ = (some (rep, tl), d')) :
    0 < rep.totalTime ∧ rep.statusDurations ≠ [] ∧ tl.segments ≠ [] := by
  obtain ⟨hRS, hH, hRel, hrep, htl, hd⟩ := processMachine_some h
  rcases List.eq_nil_or_concat
      ((m.history.filter (fun h => decide (m.createdAt ≤ h.changedAt))).filter
        (fun h => decide (h.changedAt < E))) with hnil | ⟨l, e, hcat⟩
  · exact absurd hnil hRel
  rw [List.concat_eq_append] at hcat
  have hmem : e ∈ (m.history.filter (fun h => decide (m.createdAt ≤ h.changedAt))).filter
      (fun h => decide (h.changedAt < E)) := by
    rw [hcat]; simp
  have heE : e.changedAt < E := of_decide_eq_true (List.mem_filter.mp hmem).2
  have hene : e.status ≠ "" :=
    hstat e (List.mem_of_mem_filter (List.mem_of_mem_filter hmem))
  set RS := max S m.createdAt with hRSdef
  rw [hcat] at hrep htl
  -- the state after the fold has the last event as cursor
  have hfold : ∀ (init : SweepState),
      ((l ++ [e]).foldl (sweepStep RS E) init).currentStatus = some e.status ∧
      ((l ++ [e]).foldl (sweepStep RS E) init).currentPeriodStart =
        max e.changedAt RS := by
    intro init
    rw [List.foldl_append]
    exact ⟨sweepStep_currentStatus _ _ _ _, sweepStep_currentPeriodStart _ _ _ _⟩
  have hplt : max e.changedAt RS < E := max_lt heE hRS
  have hem := closeFinal_emit E
    ((l ++ [e]).foldl (sweepStep RS E)
      { statusDurations := []
        deptTotals := d₀
        segments := []
        currentStatus := carriedOverStatus
          (m.history.filter (fun h => decide (m.createdAt ≤ h.changedAt)))
          (l ++ [e]) RS
        currentPeriodStart := RS }) e.status
    (hfold _).1 hene (by rw [(hfold _).2]; exact hplt)
  have hsd_ne : (runSweep RS E
      (m.history.filter (fun h => decide (m.createdAt ≤ h.changedAt)))
      (l ++ [e]) d₀).statusDurations ≠ [] := by
    rw [runSweep, hem]
    exact addDuration_ne_nil _ _ _
  have hseg_ne : (runSweep RS E
      (m.history.filter (fun h => decide (m.createdAt ≤ h.changedAt)))
      (l ++ [e]) d₀).segments ≠ [] := by
    rw [runSweep, hem]
    simp
  have hInv := sweepInv_runSweep d₀ RS E
    (m.history.filter (fun h => decide (m.createdAt ≤ h.changedAt))) (l ++ [e])
  refine ⟨?_, ?_, ?_⟩
  · rw [hrep]
    show 0 < totSum (runSweep RS E _ (l ++ [e]) d₀).statusDurations
    rw [totSum]
    refine List.sum_pos _ (fun x hx => ?_) ?_
    · obtain ⟨p, hp, rfl⟩ := List.mem_map.mp hx
      exact hInv.sdpos p hp
    · intro hmapnil
      exact hsd_ne (List.map_eq_nil_iff.mp hmapnil)
  · rw [hrep]
    show mkStatusDurationArray _ _ ≠ []
    exact mkStatusDurationArray_ne_nil _ _ hsd_ne
  · rw [htl]
    show (runSweep RS E _ (l ++ [e]) d₀).segments ≠ []
    exact hseg_ne

lemma reportFold_id (S E : ℤ) (hE : E ≤ S) :
    ∀ (ms : List MachineInput)
      (acc : List MachineReport × List (String × ℤ) × List MachineTimeline),
      ms.foldl (reportFoldStep S E) acc = acc
  | [], _ => rfl
  | mm :: rest, acc => by
    have hstep : reportFoldStep S E acc mm = acc := by
      obtain ⟨a, b, c⟩ := acc
      rw [reportFoldStep,
        processMachine_none S E mm b
          (Or.inl (le_trans hE (le_max_left S mm.createdAt)))]
    rw [List.foldl_cons, hstep]
    exact reportFold_id S E hE rest acc

/-- C5: a machine for which the effective report start reaches the
effective end, or whose history is empty once events before
`machine.created_at` are discarded, or none of whose remaining events is
strictly before the effective end, contributes nothing: it is skipped via
`continue` with the aggregate accumulator untouched, and no error is
raised (the function is total).  Likewise a window whose start is at or
past the effective end yields the empty report. -/
theorem empty_report_policy (S E : ℤ) (m : MachineInput)
    (d₀ : List (String × ℤ))
    (hcase : E ≤ max S m.createdAt ∨
      m.history.filter (fun h => decide (m.createdAt ≤ h.changedAt)) = [] ∨
      (m.history.filter (fun h => decide (m.createdAt ≤ h.changedAt))).filter
        (fun h => decide (h.changedAt < E)) = []) :
    processMachine S E m d₀ = (none, d₀) ∧
    ∀ (startT endRaw now : ℤ) (ms : List MachineInput),
      effectiveEndTime endRaw now ≤ startT →
      generateReport startT endRaw now ms =
        ({ statusDurations := [], totalTime := 0, machineReports := [] }, []) := by
  refine ⟨processMachine_none S E m d₀ hcase, ?_⟩
  intro startT endRaw now ms hle
  have hf := reportFold_id startT (effectiveEndTime endRaw now) hle ms ([], [], [])
  simp only [generateReport, hf]
  rfl

/-- C6: the end of the window is clamped to `min(end, now)` before any
computation, so running the report with any `window.end` later than `now`
yields exactly the report for `window.end = now`. -/
theorem window_clamp_idempotent (S endRaw now : ℤ) (ms : List MachineInput)
    (h : now < endRaw) :
    generateReport S endRaw now ms = generateReport S now now ms := by
  have he : effectiveEndTime endRaw now = effectiveEndTime now now := by
    simp [effectiveEndTime, min_eq_right h.le]
  simp only [generateReport, he]

lemma find?_append_right_false {α : Type} {p : α → Bool} (l : List α) (x : α)
    (hx : p x = false) : (l ++ [x]).find? p = l.find? p := by
  induction l with
  | nil => simp [List.find?, hx]
  | cons a t ih =>
    cases hpa : p a with
    | true => simp [List.find?_cons_of_pos, hpa]
    | false =>
      simpa [List.find?_cons_of_neg, hpa] using ih

/-- C8: every emitted segment has strictly positive duration equal to
`endTime - startTime` and ends at or before the effective end (so a
change at exactly the effective report start never yields a zero-length
leading segment, and zero-length durations are never appended); every
recorded per-machine and aggregate duration is strictly positive; and an
event at exactly the effective end is filtered out by the strict `<`, so
adding one to the history changes nothing. -/
theorem positive_durations (S E : ℤ) (m : MachineInput)
    (d₀ : List (String × ℤ)) :
    (∀ (rep : MachineReport) (tl : MachineTimeline) (d' : List (String × ℤ)),
      processMachine S E m d₀ = (some (rep, tl), d') →
      (∀ sg ∈ tl.segments,
        0 < sg.duration ∧ sg.duration = sg.endTime - sg.startTime ∧
          sg.endTime ≤ E) ∧
      (∀ e ∈ rep.statusDurations, 0 < e.duration) ∧
      ((∀ p ∈ d₀, 0 < p.2) → ∀ p ∈ d', 0 < p.2)) ∧
    (∀ ev : StatusHistoryEvent, ev.changedAt = E →
      processMachine S E { m with history := m.history ++ [ev] } d₀ =
        processMachine S E m d₀) := by
  constructor
  · intro rep tl d' h
    obtain ⟨hRS, hH, hRel, hrep, htl, hd⟩ := processMachine_some h
    have hInv := sweepInv_runSweep d₀ (max S m.createdAt) E
      (m.history.filter (fun h => decide (m.createdAt ≤ h.changedAt)))
      ((m.history.filter (fun h => decide (m.createdAt ≤ h.changedAt))).filter
        (fun h => decide (h.changedAt < E)))
    refine ⟨?_, ?_, ?_⟩
    · rw [htl]
      exact hInv.segok
    · rw [hrep]
      exact mem_mkStatusDurationArray_pos _ _ hInv.sdpos
    · rw [hd]
      exact hInv.dpos
  · intro ev hev
    by_cases hc : m.createdAt ≤ ev.changedAt
    · by_cases h1 : E ≤ max S m.createdAt
      · rw [processMachine_none S E m d₀ (Or.inl h1),
          processMachine_none S E { m with history := m.history ++ [ev] } d₀
            (Or.inl h1)]
      · have hfa : (m.history ++ [ev]).filter
            (fun h => decide (m.createdAt ≤ h.changedAt)) =
            m.history.filter (fun h => decide (m.createdAt ≤ h.changedAt)) ++ [ev] := by
          rw [List.filter_append]
          simp [hc]
        have hrel : ((m.history.filter
              (fun h => decide (m.createdAt ≤ h.changedAt))) ++ [ev]).filter
              (fun h => decide (h.changedAt < E)) =
            (m.history.filter (fun h => decide (m.createdAt ≤ h.changedAt))).filter
              (fun h => decide (h.changedAt < E)) := by
          rw [List.filter_append]
          simp [hev]
        have hevp : decide (ev.changedAt ≤ max S m.createdAt) = false := by
          rw [hev]
          simpa using h1
        have hcarry : ∀ (rel : List StatusHistoryEvent),
            carriedOverStatus
              (m.history.filter (fun h => decide (m.createdAt ≤ h.changedAt)) ++ [ev])
              rel (max S m.createdAt) =
            carriedOverStatus
              (m.history.filter (fun h => decide (m.createdAt ≤ h.changedAt)))
              rel (max S m.createdAt) := by
          intro rel
          cases rel with
          | nil => rfl
          | cons f t =>
            simp only [carriedOverStatus]
            rw [show List.find?
                  (fun h => decide (h.changedAt ≤ max S m.createdAt))
                  (m.history.filter (fun h => decide (m.createdAt ≤ h.changedAt))
                    ++ [ev]) =
                List.find?
                  (fun h => decide (h.changedAt ≤ max S m.createdAt))
                  (m.history.filter (fun h => decide (m.createdAt ≤ h.changedAt)))
              from find?_append_right_false _ _ hevp]
        have hrunS : runSweep (max S m.createdAt) E
            (m.history.filter (fun h => decide (m.createdAt ≤ h.changedAt)) ++ [ev])
            ((m.history.filter (fun h => decide (m.createdAt ≤ h.changedAt))).filter
              (fun h => decide (h.changedAt < E))) d₀ =
            runSweep (max S m.createdAt) E
            (m.history.filter (fun h => decide (m.createdAt ≤ h.changedAt)))
            ((m.history.filter (fun h => decide (m.createdAt ≤ h.changedAt))).filter
              (fun h => decide (h.changedAt < E))) d₀ := by
          rw [runSweep, runSweep, hcarry]
        by_cases h2 : m.history.filter (fun h => decide (m.createdAt ≤ h.changedAt)) = []
        · rw [processMachine_none S E _ d₀
            (Or.inr (Or.inr (by
              show ((m.history ++ [ev]).filter
                (fun h => decide (m.createdAt ≤ h.changedAt))).filter
                  (fun h => decide (h.changedAt < E)) = []
              rw [hfa, hrel, h2]
              rfl))),
            processMachine_none S E m d₀ (Or.inr (Or.inl h2))]
        · show processMachine S E { m with history := m.history ++ [ev] } d₀ =
            processMachine S E m d₀
          simp only [processMachine]
          rw [hfa, hrel, hrunS,
            if_neg (by
              rw [not_or]
              exact ⟨h1, by simp⟩),
            if_neg (not_or.mpr ⟨h1, h2⟩)]
    · have hfa : (m.history ++ [ev]).filter
          (fun h => decide (m.createdAt ≤ h.changedAt)) =
          m.history.filter (fun h => decide (m.createdAt ≤ h.changedAt)) := by
        rw [List.filter_append]
        simp [hc]
      show processMachine S E { m with history := m.history ++ [ev] } d₀ =
        processMachine S E m d₀
      simp only [processMachine]
      rw [hfa]

/-- C9: every percentage in a per-machine or aggregate breakdown is its
entry's duration divided by that breakdown's total times 100 when the
total is positive, and 0 when the total is 0; the computation is total,
so no division-by-zero error can occur. -/
theorem percentage_guarded (S E : ℤ) (m : MachineInput)
    (d₀ : List (String × ℤ)) :
    (∀ (rep : MachineReport) (tl : MachineTimeline) (d' : List (String × ℤ)),
      processMachine S E m d₀ = (some (rep, tl), d') →
      ∀ e ∈ rep.statusDurations,
        e.percentage =
          if 0 < rep.totalTime then
            ((e.duration : ℚ) / (rep.totalTime : ℚ)) * 100
          else 0) ∧
    (∀ (startT endRaw now : ℤ) (ms : List MachineInput),
      ∀ e ∈ (generateReport startT endRaw now ms).1.statusDurations,
        e.percentage =
          if 0 < (generateReport startT endRaw now ms).1.totalTime then
            ((e.duration : ℚ) /
              ((generateReport startT endRaw now ms).1.totalTime : ℚ)) * 100
          else 0) := by
  constructor
  · intro rep tl d' h e he
    obtain ⟨hRS, hH, hRel, hrep, htl, hd⟩ := processMachine_some h
    rw [hrep] at he ⊢
    exact mem_mkStatusDurationArray_percentage _ _ e he
  · intro startT endRaw now ms e he
    simp only [generateReport] at he ⊢
    exact mem_mkStatusDurationArray_percentage _ _ e he

lemma processMachine_totals_none {S E : ℤ} {m : MachineInput}
    {d₀ d' : List (String × ℤ)}
    (h : processMachine S E m d₀ = (none, d')) : d' = d₀ := by
  simp only [processMachine] at h
  split_ifs at h
  · exact (Prod.mk.injEq .. ▸ h).2.symm
  · exact (Prod.mk.injEq .. ▸ h).2.symm
  · exact absurd (congrArg Prod.fst h) (by simp)

lemma processMachine_totals_some {S E : ℤ} {m : MachineInput}
    {d₀ d' : List (String × ℤ)} {rep : MachineReport} {tl : MachineTimeline}
    (h : processMachine S E m d₀ = (some (rep, tl), d')) :
    (∀ s, valSum s d' = valSum s d₀ + durSum s rep.statusDurations) ∧
    totSum d' = totSum d₀ + rep.totalTime := by
  obtain ⟨hRS, hH, hRel, hrep, htl, hd⟩ := processMachine_some h
  have hInv := sweepInv_runSweep d₀ (max S m.createdAt) E
    (m.history.filter (fun h => decide (m.createdAt ≤ h.changedAt)))
    ((m.history.filter (fun h => decide (m.createdAt ≤ h.changedAt))).filter
      (fun h => decide (h.changedAt < E)))
  constructor
  · intro s
    rw [hd, hrep]
    show valSum s (runSweep _ _ _ _ d₀).deptTotals =
      valSum s d₀ + durSum s (mkStatusDurationArray _ _)
    rw [durSum_mkStatusDurationArray]
    exact hInv.dval s
  · rw [hd, hrep]
    show totSum (runSweep _ _ _ _ d₀).deptTotals =
      totSum d₀ + totSum (runSweep _ _ _ _ d₀).statusDurations
    exact hInv.dtot

lemma reportFold_consistency (S E : ℤ) :
    ∀ (ms : List MachineInput)
      (acc : List MachineReport × List (String × ℤ) × List MachineTimeline),
      (∀ s, valSum s acc.2.1 =
        (acc.1.map (fun r => durSum s r.statusDurations)).sum) →
      totSum acc.2.1 = (acc.1.map (fun r => r.totalTime)).sum →
      (∀ s, valSum s (ms.foldl (reportFoldStep S E) acc).2.1 =
        ((ms.foldl (reportFoldStep S E) acc).1.map
          (fun r => durSum s r.statusDurations)).sum) ∧
      totSum (ms.foldl (reportFoldStep S E) acc).2.1 =
        ((ms.foldl (reportFoldStep S E) acc).1.map (fun r => r.totalTime)).sum
  | [], _, hv, ht => ⟨hv, ht⟩
  | mm :: rest, acc, hv, ht => by
    obtain ⟨a, b, c⟩ := acc
    rcases hpm : processMachine S E mm b with ⟨res, d'⟩
    cases res with
    | none =>
      have hb : d' = b := processMachine_totals_none hpm
      have hstep : reportFoldStep S E (a, b, c) mm = (a, b, c) := by
        rw [reportFoldStep, hpm, hb]
      rw [List.foldl_cons, hstep]
      exact reportFold_consistency S E rest (a, b, c) hv ht
    | some x =>
      obtain ⟨rep, tl⟩ := x
      have hsome := processMachine_totals_some hpm
      have hstep : reportFoldStep S E (a, b, c) mm =
          (a ++ [rep], d', c ++ [tl]) := by
        rw [reportFoldStep, hpm]
      rw [List.foldl_cons, hstep]
      apply reportFold_consistency S E rest
      · intro s
        show valSum s d' =
          ((a ++ [rep]).map (fun r => durSum s r.statusDurations)).sum
        rw [List.map_append, List.sum_append, (hsome.1 s), hv s]
        simp
      · show totSum d' = ((a ++ [rep]).map (fun r => r.totalTime)).sum
        rw [List.map_append, List.sum_append, hsome.2, ht]
        simp

lemma getLast?_append_single {α : Type} (l : List α) (a : α) :
    (l ++ [a]).getLast? = some a := by
  rw [List.getLast?_concat]

lemma sweepStep_emit (S E : ℤ) (sd dt : List (String × ℤ))
    (segs : List TimelineSegment) (cs : String) (p : ℤ)
    (ev : StatusHistoryEvent) (hne : cs ≠ "") (hgt : p < ev.changedAt)
    (hle : ev.changedAt ≤ E) :
    sweepStep S E ⟨sd, dt, segs, some cs, p⟩ ev =
      ⟨addDuration sd cs (ev.changedAt - p), addDuration dt cs (ev.changedAt - p),
       segs ++ [⟨cs, p, ev.changedAt, ev.changedAt - p⟩], some ev.status,
       max ev.changedAt S⟩ := by
  have hcond : cs ≠ "" ∧ p < ev.changedAt := ⟨hne, hgt⟩
  simp only [sweepStep, min_eq_left hle, if_pos hcond,
    if_pos (show (0 : ℤ) < ev.changedAt - p by omega)]

lemma sweepStep_skip (S E : ℤ) (sd dt : List (String × ℤ))
    (segs : List TimelineSegment) (cs : String) (p : ℤ)
    (ev : StatusHistoryEvent) (hng : ¬ (cs ≠ "" ∧ p < ev.changedAt)) :
    sweepStep S E ⟨sd, dt, segs, some cs, p⟩ ev =
      ⟨sd, dt, segs, some ev.status, max ev.changedAt S⟩ := by
  simp only [sweepStep, if_neg hng]

lemma sweepStep_fromNone (S E : ℤ) (sd dt : List (String × ℤ))
    (segs : List TimelineSegment) (p : ℤ) (ev : StatusHistoryEvent) :
    sweepStep S E ⟨sd, dt, segs, none, p⟩ ev =
      ⟨sd, dt, segs, some ev.status, max ev.changedAt S⟩ := rfl

lemma sweepStep_segments_cases (S E : ℤ) (st : SweepState)
    (ev : StatusHistoryEvent) :
    (sweepStep S E st ev).segments = st.segments ∨
    ∃ cs, st.currentStatus = some cs ∧
      (sweepStep S E st ev).segments =
        st.segments ++ [⟨cs, st.currentPeriodStart, min ev.changedAt E,
          min ev.changedAt E - st.currentPeriodStart⟩] := by
  obtain ⟨sd, dt, segs, cso, p⟩ := st
  cases cso with
  | none => left; rfl
  | some cs =>
    by_cases h1 : cs ≠ "" ∧ p < ev.changedAt
    · by_cases h2 : (0 : ℤ) < min ev.changedAt E - p
      · right
        exact ⟨cs, rfl, by simp only [sweepStep, if_pos h1, if_pos h2]⟩
      · left
        simp only [sweepStep, if_pos h1, if_neg h2]
    · left
      simp only [sweepStep, if_neg h1]

lemma closeFinal_segments_cases (E : ℤ) (st : SweepState) :
    (closeFinal E st).segments = st.segments ∨
    ∃ cs, st.currentStatus = some cs ∧
      (closeFinal E st).segments =
        st.segments ++ [⟨cs, st.currentPeriodStart, E,
          E - st.currentPeriodStart⟩] := by
  obtain ⟨sd, dt, segs, cso, p⟩ := st
  cases cso with
  | none => left; rfl
  | some cs =>
    by_cases h1 : cs ≠ "" ∧ p < E
    · right
      exact ⟨cs, rfl, by
        have := h1.2
        simp only [closeFinal, if_pos h1,
          if_pos (show (0 : ℤ) < E - p by omega)]⟩
    · left
      simp only [closeFinal, if_neg h1]

/-- Main induction for an ascending in-window event list: once a status is
set and the cursor sits at `p` (below every remaining event's clamped
time), the sweep plus the closing step emits segments that tile
`[p, E)` exactly: their durations sum to `E - p` and consecutive segments
touch. -/
lemma sweep_sorted_run (S E : ℤ) :
    ∀ (l : List StatusHistoryEvent) (sd dt : List (String × ℤ))
      (segs : List TimelineSegment) (cs : String) (p : ℤ),
      (∀ e ∈ l, e.changedAt < E) →
      List.Pairwise (fun a b => a.changedAt ≤ b.changedAt) l →
      (∀ e ∈ l, e.status ≠ "") →
      cs ≠ "" →
      (∀ e ∈ l, p ≤ max e.changedAt S) →
      S ≤ p → p < E →
      (∀ x ∈ segs.getLast?, x.endTime = p) →
      List.Chain' (fun a b => a.endTime = b.startTime) segs →
      segSum (closeFinal E
          (l.foldl (sweepStep S E) ⟨sd, dt, segs, some cs, p⟩)).segments =
        segSum segs + (E - p) ∧
      List.Chain' (fun a b => a.endTime = b.startTime)
        (closeFinal E
          (l.foldl (sweepStep S E) ⟨sd, dt, segs, some cs, p⟩)).segments := by
  intro l
  induction l with
  | nil =>
    intro sd dt segs cs p h1 h2 hst hcs h3 h4 h5 hlast hchain
    rw [List.foldl_nil,
      closeFinal_emit E ⟨sd, dt, segs, some cs, p⟩ cs rfl hcs h5]
    constructor
    · show segSum (segs ++ [⟨cs, p, E, E - p⟩]) = segSum segs + (E - p)
      rw [segSum_append]
    · show List.Chain' (fun a b => a.endTime = b.startTime)
        (segs ++ [⟨cs, p, E, E - p⟩])
      refine List.chain'_append.mpr ⟨hchain, List.chain'_singleton _, ?_⟩
      intro x hx y hy
      simp at hy
      subst hy
      exact hlast x hx
  | cons e l' ih =>
    intro sd dt segs cs p h1 h2 hst hcs h3 h4 h5 hlast hchain
    have heE : e.changedAt < E := h1 e (List.mem_cons_self e l')
    have hest : e.status ≠ "" := hst e (List.mem_cons_self e l')
    by_cases hgt : p < e.changedAt
    · have hSe : S ≤ e.changedAt := le_trans h4 hgt.le
      have hmax : max e.changedAt S = e.changedAt := max_eq_left hSe
      rw [List.foldl_cons,
        sweepStep_emit S E sd dt segs cs p e hcs hgt heE.le, hmax]
      obtain ⟨hsum, hch⟩ := ih (addDuration sd cs (e.changedAt - p))
        (addDuration dt cs (e.changedAt - p))
        (segs ++ [⟨cs, p, e.changedAt, e.changedAt - p⟩]) e.status e.changedAt
        (fun x hx => h1 x (List.mem_cons_of_mem _ hx))
        (List.Pairwise.of_cons h2)
        (fun x hx => hst x (List.mem_cons_of_mem _ hx))
        hest
        (fun x hx =>
          le_trans ((List.pairwise_cons.mp h2).1 x hx) (le_max_left _ _))
        hSe heE
        (by
          intro x hx
          rw [getLast?_append_single] at hx
          simp at hx
          subst hx
          rfl)
        (by
          refine List.chain'_append.mpr ⟨hchain, List.chain'_singleton _, ?_⟩
          intro x hx y hy
          simp at hy
          subst hy
          exact hlast x hx)
      constructor
      · rw [hsum, segSum_append]
        show segSum segs + (e.changedAt - p) + (E - e.changedAt) =
          segSum segs + (E - p)
        omega
      · exact hch
    · have hpeq : max e.changedAt S = p :=
        le_antisymm (max_le (not_lt.mp hgt) h4) (h3 e (List.mem_cons_self e l'))
      rw [List.foldl_cons,
        sweepStep_skip S E sd dt segs cs p e (fun hc => hgt hc.2), hpeq]
      exact ih sd dt segs e.status p
        (fun x hx => h1 x (List.mem_cons_of_mem _ hx))
        (List.Pairwise.of_cons h2)
        (fun x hx => hst x (List.mem_cons_of_mem _ hx))
        hest
        (fun x hx => h3 x (List.mem_cons_of_mem _ hx))
        h4 h5 hlast hchain

/-- Starting the sweep with no known status (the sorted-history situation
whenever the first in-window event is after the effective report start,
and also when it is at or before it, since then the cursor is immediately
overwritten): the emitted segments tile `[max(first event time, S), E)`. -/
lemma sweep_sorted_fromNone (S E : ℤ) (d₀ : List (String × ℤ))
    (e : StatusHistoryEvent) (l' : List StatusHistoryEvent)
    (h1 : ∀ x ∈ e :: l', x.changedAt < E)
    (h2 : List.Pairwise (fun a b => a.changedAt ≤ b.changedAt) (e :: l'))
    (hst : ∀ x ∈ e :: l', x.status ≠ "")
    (hSE : S < E) :
    segSum (closeFinal E
        ((e :: l').foldl (sweepStep S E) ⟨[], d₀, [], none, S⟩)).segments =
      E - max e.changedAt S ∧
    List.Chain' (fun a b => a.endTime = b.startTime)
      (closeFinal E
        ((e :: l').foldl (sweepStep S E) ⟨[], d₀, [], none, S⟩)).segments := by
  rw [List.foldl_cons, sweepStep_fromNone]
  obtain ⟨hsum, hch⟩ := sweep_sorted_run S E l' [] d₀ [] e.status
    (max e.changedAt S)
    (fun x hx => h1 x (List.mem_cons_of_mem _ hx))
    (List.Pairwise.of_cons h2)
    (fun x hx => hst x (List.mem_cons_of_mem _ hx))
    (hst e (List.mem_cons_self e l'))
    (fun x hx => max_le_max ((List.pairwise_cons.mp h2).1 x hx) le_rfl)
    (le_max_right _ _)
    (max_lt (h1 e (List.mem_cons_self e l')) hSE)
    (by intro x hx; simp at hx)
    List.chain'_nil
  refine ⟨?_, hch⟩
  rw [hsum]
  show segSum [] + (E - max e.changedAt S) = E - max e.changedAt S
  simp [segSum]

/-- For an ascending history the carried-over branch never fires with a
result: if the first in-window event is after the report start then no
event at all is at or before it, and otherwise the branch is skipped. -/
lemma carriedOver_none_of_sorted (history : List StatusHistoryEvent)
    (S E : ℤ)
    (hsort : List.Pairwise (fun a b => a.changedAt ≤ b.changedAt) history) :
    carriedOverStatus history
      (history.filter (fun h => decide (h.changedAt < E))) S = none := by
  cases history with
  | nil => rfl
  | cons h t =>
    by_cases hh : h.changedAt < E
    · rw [List.filter_cons, if_pos (by simpa using hh)]
      simp only [carriedOverStatus]
      by_cases hS : S < h.changedAt
      · rw [if_pos hS]
        rw [List.find?_eq_none.mpr]
        · rfl
        · intro x hx
          simp only [decide_eq_true_eq]
          rcases List.mem_cons.mp hx with rfl | hx'
          · omega
          · have := (List.pairwise_cons.mp hsort).1 x hx'
            omega
      · rw [if_neg hS]
    · have ht : t.filter (fun h => decide (h.changedAt < E)) = [] := by
        rw [List.filter_eq_nil_iff]
        intro x hx
        have := (List.pairwise_cons.mp hsort).1 x hx
        simp only [decide_eq_true_eq]
        omega
      rw [List.filter_cons, if_neg (by simpa using hh), ht]
      rfl

lemma chain_touch_head_le :
    ∀ (x : TimelineSegment) (xs : List TimelineSegment),
      List.Chain' (fun a b => a.endTime = b.startTime) (x :: xs) →
      (∀ sg ∈ x :: xs, sg.startTime < sg.endTime) →
      ∀ y ∈ xs, x.endTime ≤ y.startTime
  | _, [], _, _, y, hy => absurd hy (by simp)
  | x, z :: zs, hch, hpos, y, hy => by
    have hxz : x.endTime = z.startTime := (List.chain'_cons.mp hch).1
    have htail := (List.chain'_cons.mp hch).2
    rcases List.mem_cons.mp hy with rfl | hy'
    · exact le_of_eq hxz
    · have hz := chain_touch_head_le z zs htail
        (fun sg hsg => hpos sg (List.mem_cons_of_mem _ hsg)) y hy'
      have hzpos : z.startTime < z.endTime :=
        hpos z (List.mem_cons_of_mem _ (List.mem_cons_self z zs))
      omega

lemma chain_touch_pairwise (l : List TimelineSegment)
    (hchain : List.Chain' (fun a b => a.endTime = b.startTime) l)
    (hpos : ∀ sg ∈ l, sg.startTime < sg.endTime) :
    List.Pairwise (fun a b => a.endTime ≤ b.startTime) l := by
  induction l with
  | nil => exact List.Pairwise.nil
  | cons x xs ih =>
    refine List.Pairwise.cons (chain_touch_head_le x xs hchain hpos) ?_
    exact ih ((List.chain'_cons'.mp hchain).2)
      (fun sg hsg => hpos sg (List.mem_cons_of_mem _ hsg))

/-- C7: for every status, the duration in the aggregate breakdown equals
the sum over the per-machine reports of that status's duration; the
aggregate `totalTime` is the sum of the per-machine `totalTime` values;
and every aggregate percentage is derived from the aggregate total alone
(the guarded `duration / departmentTotal * 100` formula). -/
theorem aggregate_consistency (startT endRaw now : ℤ) (ms : List MachineInput) :
    (∀ s, durSum s (generateReport startT endRaw now ms).1.statusDurations =
      ((generateReport startT endRaw now ms).1.machineReports.map
        (fun r => durSum s r.statusDurations)).sum) ∧
    (generateReport startT endRaw now ms).1.totalTime =
      ((generateReport startT endRaw now ms).1.machineReports.map
        (fun r => r.totalTime)).sum ∧
    (∀ e ∈ (generateReport startT endRaw now ms).1.statusDurations,
      e.percentage =
        if 0 < (generateReport startT endRaw now ms).1.totalTime then
          ((e.duration : ℚ) /
            ((generateReport startT endRaw now ms).1.totalTime : ℚ)) * 100
        else 0) := by
  have hf := reportFold_consistency startT (effectiveEndTime endRaw now) ms
    ([], [], []) (fun s => by simp [valSum_nil]) (by simp [totSum_nil])
  refine ⟨fun s => ?_, ?_, fun e he => ?_⟩
  · simp only [generateReport]
    rw [durSum_mkStatusDurationArray]
    exact hf.1 s
  · simp only [generateReport]
    exact hf.2
  · simp only [generateReport] at he ⊢
    exact mem_mkStatusDurationArray_percentage _ _ e he

/-- C3 (amended: the machine's history is supplied in ascending
`changedAt` order, which the code assumes rather than establishes, and no
event's status is the empty string, which JavaScript truthiness silently
drops): the per-machine breakdown durations and the timeline segment
durations have the same sum, and that sum is the effective window length
minus the unknown-status time before the machine's first in-window
event. -/
theorem total_conservation (S E : ℤ) (m : MachineInput)
    (d₀ d' : List (String × ℤ)) (rep : MachineReport) (tl : MachineTimeline)
    (hsort : List.Pairwise (fun a b => a.changedAt ≤ b.changedAt) m.history)
    (hstat : ∀ ev ∈ m.history, ev.status ≠ "")
    (h : processMachine S E m d₀ = (some (rep, tl), d')) :
    durTotal rep.statusDurations = segSum tl.segments ∧
    durTotal rep.statusDurations =
      (E - max S m.createdAt) -
        leadingUnknownTime
          ((m.history.filter (fun h => decide (m.createdAt ≤ h.changedAt))).filter
            (fun h => decide (h.changedAt < E)))
          (max S m.createdAt) := by
  obtain ⟨hRS, hH, hRel, hrep, htl, hd⟩ := processMachine_some h
  have hsort' : List.Pairwise (fun a b => a.changedAt ≤ b.changedAt)
      (m.history.filter (fun h => decide (m.createdAt ≤ h.changedAt))) :=
    hsort.sublist (List.filter_sublist _)
  have hInv := sweepInv_runSweep d₀ (max S m.createdAt) E
    (m.history.filter (fun h => decide (m.createdAt ≤ h.changedAt)))
    ((m.history.filter (fun h => decide (m.createdAt ≤ h.changedAt))).filter
      (fun h => decide (h.changedAt < E)))
  have hpart1 : durTotal rep.statusDurations = segSum tl.segments := by
    rw [hrep, htl]
    show durTotal (mkStatusDurationArray _ _) = _
    rw [durTotal_mkStatusDurationArray]
    exact hInv.pair
  refine ⟨hpart1, ?_⟩
  rcases hrelcase : (m.history.filter
      (fun h => decide (m.createdAt ≤ h.changedAt))).filter
      (fun h => decide (h.changedAt < E)) with _ | ⟨e, l'⟩
  · exact absurd hrelcase hRel
  have hcarry : carriedOverStatus
      (m.history.filter (fun h => decide (m.createdAt ≤ h.changedAt)))
      (e :: l') (max S m.createdAt) = none := by
    rw [← hrelcase]
    exact carriedOver_none_of_sorted _ _ E hsort'
  have hall : ∀ x ∈ e :: l', x.changedAt < E := by
    intro x hx
    rw [← hrelcase] at hx
    exact of_decide_eq_true (List.mem_filter.mp hx).2
  have hsort'' : List.Pairwise (fun a b => a.changedAt ≤ b.changedAt) (e :: l') := by
    rw [← hrelcase]
    exact hsort'.sublist (List.filter_sublist _)
  have hst : ∀ x ∈ e :: l', x.status ≠ "" := by
    intro x hx
    rw [← hrelcase] at hx
    exact hstat x (List.mem_of_mem_filter (List.mem_of_mem_filter hx))
  have hrun : segSum (runSweep (max S m.createdAt) E
      (m.history.filter (fun h => decide (m.createdAt ≤ h.changedAt)))
      (e :: l') d₀).segments = E - max e.changedAt (max S m.createdAt) := by
    rw [runSweep, hcarry]
    exact (sweep_sorted_fromNone (max S m.createdAt) E d₀ e l'
      hall hsort'' hst hRS).1
  rw [hpart1, htl]
  show segSum (runSweep _ _ _ _ d₀).segments =
    (E - max S m.createdAt) - leadingUnknownTime _ (max S m.createdAt)
  rw [hrelcase, hrun]
  show E - max e.changedAt (max S m.createdAt) =
    (E - max S m.createdAt) -
      (max e.changedAt (max S m.createdAt) - max S m.createdAt)
  omega

/-- C4 (amended: the machine's history is supplied in ascending
`changedAt` order, which the code assumes rather than establishes, and no
event's status is the empty string, which JavaScript truthiness silently
drops, leaving a mid-window gap): the timeline segments, in emitted
order, are non-overlapping: consecutive segments touch exactly (so start
and end times are both non-decreasing and the only gap is the
unknown-status gap at the very start), every segment is non-degenerate,
and any earlier segment ends at or before any later one starts. -/
theorem segments_disjoint (S E : ℤ) (m : MachineInput)
    (d₀ d' : List (String × ℤ)) (rep : MachineReport) (tl : MachineTimeline)
    (hsort : List.Pairwise (fun a b => a.changedAt ≤ b.changedAt) m.history)
    (hstat : ∀ ev ∈ m.history, ev.status ≠ "")
    (h : processMachine S E m d₀ = (some (rep, tl), d')) :
    List.Chain' (fun a b => a.endTime = b.startTime) tl.segments ∧
    (∀ sg ∈ tl.segments, sg.startTime < sg.endTime) ∧
    List.Pairwise (fun a b => a.endTime ≤ b.startTime) tl.segments := by
  obtain ⟨hRS, hH, hRel, hrep, htl, hd⟩ := processMachine_some h
  have hsort' : List.Pairwise (fun a b => a.changedAt ≤ b.changedAt)
      (m.history.filter (fun h => decide (m.createdAt ≤ h.changedAt))) :=
    hsort.sublist (List.filter_sublist _)
  have hInv := sweepInv_runSweep d₀ (max S m.createdAt) E
    (m.history.filter (fun h => decide (m.createdAt ≤ h.changedAt)))
    ((m.history.filter (fun h => decide (m.createdAt ≤ h.changedAt))).filter
      (fun h => decide (h.changedAt < E)))
  have hpos : ∀ sg ∈ tl.segments, sg.startTime < sg.endTime := by
    intro sg hsg
    rw [htl] at hsg
    obtain ⟨hd1, hd2, _⟩ := hInv.segok sg hsg
    omega
  rcases hrelcase : (m.history.filter
      (fun h => decide (m.createdAt ≤ h.changedAt))).filter
      (fun h => decide (h.changedAt < E)) with _ | ⟨e, l'⟩
  · exact absurd hrelcase hRel
  have hcarry : carriedOverStatus
      (m.history.filter (fun h => decide (m.createdAt ≤ h.changedAt)))
      (e :: l') (max S m.createdAt) = none := by
    rw [← hrelcase]
    exact carriedOver_none_of_sorted _ _ E hsort'
  have hall : ∀ x ∈ e :: l', x.changedAt < E := by
    intro x hx
    rw [← hrelcase] at hx
    exact of_decide_eq_true (List.mem_filter.mp hx).2
  have hsort'' : List.Pairwise (fun a b => a.changedAt ≤ b.changedAt) (e :: l') := by
    rw [← hrelcase]
    exact hsort'.sublist (List.filter_sublist _)
  have hst : ∀ x ∈ e :: l', x.status ≠ "" := by
    intro x hx
    rw [← hrelcase] at hx
    exact hstat x (List.mem_of_mem_filter (List.mem_of_mem_filter hx))
  have hchain : List.Chain' (fun a b => a.endTime = b.startTime) tl.segments := by
    rw [htl]
    show List.Chain' _ (runSweep _ _ _ _ d₀).segments
    rw [hrelcase, runSweep, hcarry]
    exact (sweep_sorted_fromNone (max S m.createdAt) E d₀ e l'
      hall hsort'' hst hRS).2
  exact ⟨hchain, hpos, chain_touch_pairwise _ hchain hpos⟩

/-- Every segment the sweep emits starts at or after some member of the
processed event list, provided the initial status is unknown: the time
before the earliest in-window event is never attributed to anything. -/
lemma sweep_starts_at_events (S E : ℤ) (R : List StatusHistoryEvent) :
    ∀ (l : List StatusHistoryEvent) (st : SweepState),
      (∀ e ∈ l, e ∈ R) →
      (∀ cs, st.currentStatus = some cs →
        ∃ e2 ∈ R, e2.changedAt ≤ st.currentPeriodStart) →
      (∀ sg ∈ st.segments, ∃ e2 ∈ R, e2.changedAt ≤ sg.startTime) →
      ∀ sg ∈ (closeFinal E (l.foldl (sweepStep S E) st)).segments,
        ∃ e2 ∈ R, e2.changedAt ≤ sg.startTime
  | [], st, hsub, hcs, hsegs => by
    rw [List.foldl_nil]
    rcases closeFinal_segments_cases E st with hsame | ⟨cs, hcso, happ⟩
    · rw [hsame]
      exact hsegs
    · rw [happ]
      intro sg hsg
      rcases List.mem_append.mp hsg with hin | hin
      · exact hsegs sg hin
      · simp at hin
        subst hin
        exact hcs cs hcso
  | e :: l', st, hsub, hcs, hsegs => by
    rw [List.foldl_cons]
    apply sweep_starts_at_events S E R l' (sweepStep S E st e)
      (fun x hx => hsub x (List.mem_cons_of_mem _ hx))
    · intro cs _
      exact ⟨e, hsub e (List.mem_cons_self e l'),
        by rw [sweepStep_currentPeriodStart]; exact le_max_left _ _⟩
    · rcases sweepStep_segments_cases S E st e with hsame | ⟨cs, hcso, happ⟩
      · rw [hsame]
        exact hsegs
      · rw [happ]
        intro sg hsg
        rcases List.mem_append.mp hsg with hin | hin
        · exact hsegs sg hin
        · simp at hin
          subst hin
          exact hcs cs hcso

/-- C1 (amended): when the first element of `relevantHistory` is later
than the effective report start, the carried-over status is the status of
the FIRST event in the supplied order of the (created-at-filtered)
history whose `changedAt` is at or before the effective report start —
the latest such event only when the list happens to be ordered that way;
and if no such event exists, no carried-over status is set and no segment
starts before some in-window event, so the initial period contributes
nothing. -/
theorem carried_over_first_match (S E : ℤ) (m : MachineInput)
    (d₀ d' : List (String × ℤ)) (rep : MachineReport) (tl : MachineTimeline)
    (first : StatusHistoryEvent) (t : List StatusHistoryEvent)
    (hrel : (m.history.filter (fun h => decide (m.createdAt ≤ h.changedAt))).filter
        (fun h => decide (h.changedAt < E)) = first :: t)
    (hgt : max S m.createdAt < first.changedAt) :
    carriedOverStatus
        (m.history.filter (fun h => decide (m.createdAt ≤ h.changedAt)))
        (first :: t) (max S m.createdAt) =
      ((m.history.filter (fun h => decide (m.createdAt ≤ h.changedAt))).find?
        (fun h => decide (h.changedAt ≤ max S m.createdAt))).map
        (fun h => h.status) ∧
    ((m.history.filter (fun h => decide (m.createdAt ≤ h.changedAt))).find?
        (fun h => decide (h.changedAt ≤ max S m.createdAt)) = none →
      processMachine S E m d₀ = (some (rep, tl), d') →
      ∀ sg ∈ tl.segments, ∃ e2 ∈ first :: t, e2.changedAt ≤ sg.startTime) := by
  constructor
  · simp only [carriedOverStatus, if_pos hgt]
  · intro hfind hpm sg hsg
    obtain ⟨hRS, hH, hRel, hrep, htl, hd⟩ := processMachine_some hpm
    rw [htl] at hsg
    have hcarry : carriedOverStatus
        (m.history.filter (fun h => decide (m.createdAt ≤ h.changedAt)))
        (first :: t) (max S m.createdAt) = none := by
      simp only [carriedOverStatus, if_pos hgt, hfind, Option.map_none']
    rw [show (runSweep (max S m.createdAt) E
        (m.history.filter (fun h => decide (m.createdAt ≤ h.changedAt)))
        ((m.history.filter (fun h => decide (m.createdAt ≤ h.changedAt))).filter
          (fun h => decide (h.changedAt < E))) d₀) =
      runSweep (max S m.createdAt) E
        (m.history.filter (fun h => decide (m.createdAt ≤ h.changedAt)))
        (first :: t) d₀ from by rw [hrel]] at hsg
    rw [runSweep, hcarry] at hsg
    exact sweep_starts_at_events (max S m.createdAt) E (first :: t)
      (first :: t) _ (fun x hx => hx)
      (fun cs hcs => by simp at hcs)
      (fun sg2 hsg2 => by simp at hsg2)
      sg hsg

/-! ### Concrete evaluations -/

/-- C1 counterexample: on a history supplied out of order (first event of
`relevantHistory` at 15, later than the report start 10), the code's
carried-over lookup returns the status of the FIRST array element with
`changedAt ≤ 10` — here `"X"` (changed at 0) — not the status of the
LATEST such event, which is `"Y"` (changed at 5); the sweep then opens
with `"X"`. -/
theorem carried_over_not_latest_eval :
    ((([⟨"Z", 15⟩, ⟨"X", 0⟩, ⟨"Y", 5⟩] : List StatusHistoryEvent).filter
        (fun h => decide ((0 : ℤ) ≤ h.changedAt))).filter
        (fun h => decide (h.changedAt < 20))) =
      [⟨"Z", 15⟩, ⟨"X", 0⟩, ⟨"Y", 5⟩] ∧
    carriedOverStatus [⟨"Z", 15⟩, ⟨"X", 0⟩, ⟨"Y", 5⟩]
      [⟨"Z", 15⟩, ⟨"X", 0⟩, ⟨"Y", 5⟩] 10 = some "X" ∧
    latestStatusAtOrBefore [⟨"Z", 15⟩, ⟨"X", 0⟩, ⟨"Y", 5⟩] 10 = some "Y" ∧
    (some "X" : Option String) ≠ some "Y" ∧
    ((processMachine 10 20 ⟨1, 0, [⟨"Z", 15⟩, ⟨"X", 0⟩, ⟨"Y", 5⟩]⟩ []).1.map
      (fun x => x.2.segments.map
        (fun sg => (sg.status, sg.startTime, sg.endTime)))) =
      some [("X", 10, 15), ("Y", 10, 20)] :=
  ⟨by decide, by decide, by decide, by decide, by decide⟩

/-- C2 evaluation: the Reconstructor does not sort; the same two events
supplied in the two possible orders yield different duration breakdowns
(`Y: 15` versus `X: 10, Y: 5`), so the result is not invariant under
permutation of the input. -/
theorem order_dependence_eval :
    ((processMachine 0 20 ⟨1, 0, [⟨"X", 10⟩, ⟨"Y", 5⟩]⟩ []).1.map
      (fun x => x.1.statusDurations.map (fun e => (e.status, e.duration)))) =
      some [("Y", 15)] ∧
    ((processMachine 0 20 ⟨1, 0, [⟨"Y", 5⟩, ⟨"X", 10⟩]⟩ []).1.map
      (fun x => x.1.statusDurations.map (fun e => (e.status, e.duration)))) =
      some [("X", 10), ("Y", 5)] ∧
    List.Perm [(⟨"X", 10⟩ : StatusHistoryEvent), ⟨"Y", 5⟩]
      [⟨"Y", 5⟩, ⟨"X", 10⟩] ∧
    ([(("Y" : String), (15 : ℤ))] : List (String × ℤ)) ≠
      [("X", 10), ("Y", 5)] :=
  ⟨by decide, by decide,
    List.Perm.swap (⟨"Y", 5⟩ : StatusHistoryEvent) ⟨"X", 10⟩ [], by decide⟩

/-- C3 counterexample: on an out-of-order history the recorded total (15)
is not the effective window length minus the time with no known status
(10 - 0 = 10): the unsorted sweep double-counts the interval `[10, 15)`.
And even on an ascending history, a JavaScript-falsy empty-string status
(`""` at 5) emits nothing from 5 onwards, so the total is 5, not 10. -/
theorem conservation_fails_unsorted_eval :
    ((processMachine 10 20 ⟨1, 0, [⟨"Z", 15⟩, ⟨"X", 0⟩, ⟨"Y", 5⟩]⟩ []).1.map
      (fun x => x.1.totalTime)) = some 15 ∧
    (20 - 10) -
      specTimeWithNoKnownStatus [⟨"Z", 15⟩, ⟨"X", 0⟩, ⟨"Y", 5⟩] 10 20 = 10 ∧
    (15 : ℤ) ≠ 10 ∧
    List.Pairwise (fun a b => a.changedAt ≤ b.changedAt)
      [(⟨"A", 0⟩ : StatusHistoryEvent), ⟨"", 5⟩] ∧
    ((processMachine 0 10 ⟨1, 0, [⟨"A", 0⟩, ⟨"", 5⟩]⟩ []).1.map
      (fun x => x.1.totalTime)) = some 5 ∧
    (10 - 0) - specTimeWithNoKnownStatus [⟨"A", 0⟩, ⟨"", 5⟩] 0 10 = 10 ∧
    (5 : ℤ) ≠ 10 :=
  ⟨by decide, by decide, by decide, by decide, by decide, by decide, by decide⟩

/-- C4 counterexample: on an out-of-order history the emitted segments
`[10, 15)` and `[10, 20)` intersect in time.  And even on an ascending
history, a JavaScript-falsy empty-string status (`""` at 5) leaves a gap
in the middle: the segments `[0, 5)` and `[7, 10)` do not touch. -/
theorem segments_overlap_unsorted_eval :
    ((processMachine 10 20 ⟨1, 0, [⟨"Z", 15⟩, ⟨"X", 0⟩, ⟨"Y", 5⟩]⟩ []).1.map
      (fun x => x.2.segments)) =
      some [⟨"X", 10, 15, 5⟩, ⟨"Y", 10, 20, 10⟩] ∧
    ¬ List.Pairwise
      (fun a b => a.endTime ≤ b.startTime ∨ b.endTime ≤ a.startTime)
      [(⟨"X", 10, 15, 5⟩ : TimelineSegment), ⟨"Y", 10, 20, 10⟩] ∧
    List.Pairwise (fun a b => a.changedAt ≤ b.changedAt)
      [(⟨"A", 0⟩ : StatusHistoryEvent), ⟨"", 5⟩, ⟨"B", 7⟩] ∧
    ((processMachine 0 10 ⟨1, 0, [⟨"A", 0⟩, ⟨"", 5⟩, ⟨"B", 7⟩]⟩ []).1.map
      (fun x => x.2.segments.map (fun sg => (sg.startTime, sg.endTime)))) =
      some [(0, 5), (7, 10)] ∧
    ¬ ((⟨"A", 0, 5, 5⟩ : TimelineSegment).endTime =
        (⟨"B", 7, 10, 3⟩ : TimelineSegment).startTime) :=
  ⟨by decide, by decide, by decide, by decide, by decide⟩

/-- C10 counterexample: a machine whose only in-window event carries the
empty-string status passes every guard, yet is pushed into the report
with `totalTime = 0`, an empty breakdown and no segments — the
JavaScript-falsy `currentStatus` suppresses both emission sites, and the
machine is included with zeros rather than omitted. -/
theorem zero_report_empty_status_eval :
    (processMachine 0 20 ⟨1, 0, [⟨"", 5⟩]⟩ []).1 =
      some ({ machineId := 1, statusDurations := [], totalTime := 0 },
            { machineId := 1, segments := [] }) ∧
    ¬ (0 : ℤ) < 0 :=
  ⟨by decide, by decide⟩

/-! ### Witnesses -/

theorem carried_over_first_match_witness :
    carriedOverStatus ([⟨"A", 5⟩] : List StatusHistoryEvent)
        ([⟨"A", 5⟩] : List StatusHistoryEvent) (max 2 0) =
      (([⟨"A", 5⟩] : List StatusHistoryEvent).find?
        (fun h => decide (h.changedAt ≤ max 2 0))).map (fun h => h.status) ∧
    ∀ sg ∈ (⟨1, [⟨"A", 5, 10, 5⟩]⟩ : MachineTimeline).segments,
      ∃ e2 ∈ [(⟨"A", 5⟩ : StatusHistoryEvent)], e2.changedAt ≤ sg.startTime := by
  have H := carried_over_first_match 2 10 ⟨1, 0, [⟨"A", 5⟩]⟩ [] [("A", 5)]
    ⟨1, [⟨"A", 5, 100⟩], 5⟩ ⟨1, [⟨"A", 5, 10, 5⟩]⟩ ⟨"A", 5⟩ []
    (by decide) (by decide)
  exact ⟨H.1, H.2 (by decide)
    (by norm_num [processMachine, runSweep, carriedOverStatus, sweepStep,
      closeFinal, addDuration, mkStatusDurationArray, sortByDurationDesc,
      insertByDurationDesc, show ("A" : String) ≠ "" from by decide])⟩

theorem total_conservation_witness :
    durTotal (⟨1, [⟨"I", 2, 200 / 3⟩, ⟨"R", 1, 100 / 3⟩], 3⟩ :
        MachineReport).statusDurations =
      segSum (⟨1, [⟨"R", 1, 2, 1⟩, ⟨"I", 2, 4, 2⟩]⟩ :
        MachineTimeline).segments ∧
    durTotal (⟨1, [⟨"I", 2, 200 / 3⟩, ⟨"R", 1, 100 / 3⟩], 3⟩ :
        MachineReport).statusDurations =
      (4 - max 1 0) -
        leadingUnknownTime
          ((([⟨"R", 0⟩, ⟨"I", 2⟩] :
              List StatusHistoryEvent).filter
            (fun h => decide ((0 : ℤ) ≤ h.changedAt))).filter
            (fun h => decide (h.changedAt < 4)))
          (max 1 0) :=
  total_conservation 1 4 ⟨1, 0, [⟨"R", 0⟩, ⟨"I", 2⟩]⟩ [] [("R", 1), ("I", 2)]
    ⟨1, [⟨"I", 2, 200 / 3⟩, ⟨"R", 1, 100 / 3⟩], 3⟩
    ⟨1, [⟨"R", 1, 2, 1⟩, ⟨"I", 2, 4, 2⟩]⟩
    (by decide) (by decide)
    (by norm_num [processMachine, runSweep, carriedOverStatus, sweepStep,
      closeFinal, addDuration, mkStatusDurationArray, sortByDurationDesc,
      insertByDurationDesc, List.cons_ne_nil,
      show ("R" : String) ≠ "I" from by decide,
      show ("R" : String) ≠ "" from by decide,
      show ("I" : String) ≠ "" from by decide])

theorem segments_disjoint_witness :
    List.Chain' (fun a b => a.endTime = b.startTime)
      (⟨1, [⟨"R", 1, 2, 1⟩, ⟨"I", 2, 4, 2⟩]⟩ : MachineTimeline).segments ∧
    (∀ sg ∈ (⟨1, [⟨"R", 1, 2, 1⟩, ⟨"I", 2, 4, 2⟩]⟩ :
        MachineTimeline).segments, sg.startTime < sg.endTime) ∧
    List.Pairwise (fun a b => a.endTime ≤ b.startTime)
      (⟨1, [⟨"R", 1, 2, 1⟩, ⟨"I", 2, 4, 2⟩]⟩ : MachineTimeline).segments :=
  segments_disjoint 1 4 ⟨1, 0, [⟨"R", 0⟩, ⟨"I", 2⟩]⟩ [] [("R", 1), ("I", 2)]
    ⟨1, [⟨"I", 2, 200 / 3⟩, ⟨"R", 1, 100 / 3⟩], 3⟩
    ⟨1, [⟨"R", 1, 2, 1⟩, ⟨"I", 2, 4, 2⟩]⟩
    (by decide) (by decide)
    (by norm_num [processMachine, runSweep, carriedOverStatus, sweepStep,
      closeFinal, addDuration, mkStatusDurationArray, sortByDurationDesc,
      insertByDurationDesc, List.cons_ne_nil,
      show ("R" : String) ≠ "I" from by decide,
      show ("R" : String) ≠ "" from by decide,
      show ("I" : String) ≠ "" from by decide])

theorem empty_report_policy_witness :
    processMachine 5 3 ⟨1, 0, [⟨"R", 0⟩]⟩ [] = (none, []) ∧
    generateReport 7 3 4 [⟨1, 0, [⟨"R", 0⟩]⟩] =
      ({ statusDurations := [], totalTime := 0, machineReports := [] }, []) := by
  have H := empty_report_policy 5 3 ⟨1, 0, [⟨"R", 0⟩]⟩ [] (Or.inl (by decide))
  exact ⟨H.1, H.2 7 3 4 [⟨1, 0, [⟨"R", 0⟩]⟩] (by decide)⟩

theorem window_clamp_idempotent_witness :
    generateReport 0 30 20 [⟨1, 0, [⟨"A", 0⟩]⟩] =
      generateReport 0 20 20 [⟨1, 0, [⟨"A", 0⟩]⟩] :=
  window_clamp_idempotent 0 30 20 [⟨1, 0, [⟨"A", 0⟩]⟩] (by decide)

theorem aggregate_consistency_witness :
    durSum "A"
        (generateReport 0 10 10 [⟨1, 0, [⟨"A", 0⟩]⟩]).1.statusDurations =
      (((generateReport 0 10 10 [⟨1, 0, [⟨"A", 0⟩]⟩]).1.machineReports).map
        (fun r => durSum "A" r.statusDurations)).sum ∧
    (⟨"A", (10 : ℤ), (100 : ℚ)⟩ : StatusDuration).percentage =
      if 0 < (generateReport 0 10 10 [⟨1, 0, [⟨"A", 0⟩]⟩]).1.totalTime then
        (((⟨"A", 10, 100⟩ : StatusDuration).duration : ℚ) /
          ((generateReport 0 10 10 [⟨1, 0, [⟨"A", 0⟩]⟩]).1.totalTime : ℚ)) * 100
      else 0 := by
  have hev : (generateReport 0 10 10 [⟨1, 0, [⟨"A", 0⟩]⟩]).1.statusDurations =
      [⟨"A", 10, 100⟩] := by
    norm_num [generateReport, reportFoldStep, processMachine, runSweep,
      carriedOverStatus, sweepStep, closeFinal, addDuration,
      mkStatusDurationArray, sortByDurationDesc, insertByDurationDesc,
      effectiveEndTime, show ("A" : String) ≠ "" from by decide]
  refine ⟨(aggregate_consistency 0 10 10 [⟨1, 0, [⟨"A", 0⟩]⟩]).1 "A", ?_⟩
  exact (aggregate_consistency 0 10 10 [⟨1, 0, [⟨"A", 0⟩]⟩]).2.2
    ⟨"A", 10, 100⟩ (by rw [hev]; exact List.mem_singleton.mpr rfl)

theorem positive_durations_witness :
    ((0 : ℤ) < (⟨"R", 0, 1, 1⟩ : TimelineSegment).duration ∧
      (⟨"R", 0, 1, 1⟩ : TimelineSegment).duration =
        (⟨"R", 0, 1, 1⟩ : TimelineSegment).endTime -
          (⟨"R", 0, 1, 1⟩ : TimelineSegment).startTime ∧
      (⟨"R", 0, 1, 1⟩ : TimelineSegment).endTime ≤ 1) ∧
    processMachine 0 1 ⟨1, 0, [⟨"R", 0⟩, ⟨"B", 1⟩]⟩ [] =
      processMachine 0 1 ⟨1, 0, [⟨"R", 0⟩]⟩ [] := by
  constructor
  · exact ((positive_durations 0 1 ⟨1, 0, [⟨"R", 0⟩]⟩ []).1
      ⟨1, [⟨"R", 1, 100⟩], 1⟩ ⟨1, [⟨"R", 0, 1, 1⟩]⟩ [("R", 1)]
      (by norm_num [processMachine, runSweep, carriedOverStatus, sweepStep,
        closeFinal, addDuration, mkStatusDurationArray, sortByDurationDesc,
        insertByDurationDesc,
        show ("R" : String) ≠ "" from by decide])).1 ⟨"R", 0, 1, 1⟩
      (List.mem_singleton.mpr rfl)
  · exact (positive_durations 0 1 ⟨1, 0, [⟨"R", 0⟩]⟩ []).2 ⟨"B", 1⟩ rfl

theorem percentage_guarded_witness :
    (⟨"R", (1 : ℤ), (100 : ℚ)⟩ : StatusDuration).percentage =
      if 0 < (⟨1, [⟨"R", 1, 100⟩], 1⟩ : MachineReport).totalTime then
        (((⟨"R", 1, 100⟩ : StatusDuration).duration : ℚ) /
          ((⟨1, [⟨"R", 1, 100⟩], 1⟩ : MachineReport).totalTime : ℚ)) * 100
      else 0 :=
  (percentage_guarded 0 1 ⟨1, 0, [⟨"R", 0⟩]⟩ []).1
    ⟨1, [⟨"R", 1, 100⟩], 1⟩ ⟨1, [⟨"R", 0, 1, 1⟩]⟩ [("R", 1)]
    (by norm_num [processMachine, runSweep, carriedOverStatus, sweepStep,
      closeFinal, addDuration, mkStatusDurationArray, sortByDurationDesc,
      insertByDurationDesc, show ("R" : String) ≠ "" from by decide])
    ⟨"R", 1, 100⟩ (List.mem_singleton.mpr rfl)

theorem processMachine_some_nonempty_witness :
    (0 : ℤ) < (⟨1, [⟨"R", 1, 100⟩], 1⟩ : MachineReport).totalTime ∧
    (⟨1, [⟨"R", 1, 100⟩], 1⟩ : MachineReport).statusDurations ≠ [] ∧
    (⟨1, [⟨"R", 0, 1, 1⟩]⟩ : MachineTimeline).segments ≠ [] :=
  processMachine_some_nonempty 0 1 ⟨1, 0, [⟨"R", 0⟩]⟩ [] [("R", 1)]
    ⟨1, [⟨"R", 1, 100⟩], 1⟩ ⟨1, [⟨"R", 0, 1, 1⟩]⟩
    (by decide)
    (by norm_num [processMachine, runSweep, carriedOverStatus, sweepStep,
      closeFinal, addDuration, mkStatusDurationArray, sortByDurationDesc,
      insertByDurationDesc, show ("R" : String) ≠ "" from by decide])

end MachineReports
